import Mathlib

/-!
# Verification of `Quanta/functional/quantization.py`

Shallow embedding of the quantization/dequantization routines of the
repository.  Real numbers are modelled by `ℚ`; tensors by `List ℚ`
(flat, global case) or `List (List ℚ)` (2-dimensional, per-channel
case).  The transcendental functions `log2` and `tanh`, supplied by the
external tensor library (torch), are passed in as explicit function
parameters: none of the verified claims depends on their values beyond
point facts that are stated as hypotheses where needed.

`torch.round` rounds half to even; `rnd` below implements exactly that.
`torch.argmin` returns the first index attaining the minimum;
`argminIdx` below implements exactly that.
-/

/-- Minimum of a tensor (`tensor.min()`), on a nonempty list. -/
def tmin : List ℚ → ℚ
  | [] => 0
  | x :: xs => xs.foldl min x

/-- Maximum of a tensor (`tensor.max()`), on a nonempty list. -/
def tmax : List ℚ → ℚ
  | [] => 0
  | x :: xs => xs.foldl max x

/-- Embeds `torch.max(torch.abs(tensor))`. -/
def absMax (xs : List ℚ) : ℚ := tmax (xs.map (fun x => |x|))

/-- Embeds `torch.round`: round to nearest integer, ties to even. -/
def rnd (q : ℚ) : ℤ :=
  if q - ⌊q⌋ < 1/2 then ⌊q⌋
  else if 1/2 < q - ⌊q⌋ then ⌊q⌋ + 1
  else if ⌊q⌋ % 2 = 0 then ⌊q⌋ else ⌊q⌋ + 1

/-- Embeds `torch.clamp` on integer values. -/
def clampI (x lo hi : ℤ) : ℤ := max lo (min x hi)

/-- The degenerate-range guard of the linear quantizers:
`max_val = min_val + 1e-6` when `max_val == min_val`. -/
def nudgedMax (mn mx : ℚ) : ℚ := if mx = mn then mn + 1/1000000 else mx

/-- Embeds `scale = (max_val - min_val) / L` of `quantize_4bit_linear` (`L = 15`)
and `quantize_8bit_linear` (`L = 255`), global (not per-channel) path. -/
def linScale (L : ℕ) (xs : List ℚ) : ℚ :=
  (nudgedMax (tmin xs) (tmax xs) - tmin xs) / L

/-- One element of
`torch.clamp(torch.round((tensor - min_val) / scale), 0, L).to(torch.uint8)`. -/
def linCode (L : ℕ) (scale min_val x : ℚ) : ℕ :=
  (clampI (rnd ((x - min_val) / scale)) 0 L).toNat

/-- Common core of `quantize_4bit_linear` / `quantize_8bit_linear`
(global path, `per_channel=False`): returns `(q_tensor, scale, zero_point)`. -/
def quantize_linear (L : ℕ) (xs : List ℚ) : List ℕ × ℚ × ℚ :=
  (xs.map (linCode L (linScale L xs) (tmin xs)), linScale L xs, tmin xs)

/-- Embeds `quantize_4bit_linear` (global path): 16 levels, `0..15`. -/
def quantize_4bit_linear (xs : List ℚ) : List ℕ × ℚ × ℚ := quantize_linear 15 xs

/-- Embeds `quantize_8bit_linear` (global path): 256 levels, `0..255`. -/
def quantize_8bit_linear (xs : List ℚ) : List ℕ × ℚ × ℚ := quantize_linear 255 xs

/-- The `linear` branch of `dequantize_4bit` / `dequantize_8bit`
(both branches are the same expression in the source):
`q_tensor.float() * scale + zero_point`. -/
def dequantize_linear (code : ℕ) (scale zero_point : ℚ) : ℚ :=
  code * scale + zero_point

/-- The explicit 16-entry NF4 level table of `quantize_4bit_nf4`
(the printed decimal values of the float constants, as exact rationals). -/
def nf4_levels : List ℚ :=
  [-1, -6961928009986877/10000000000000000, -5250730514526367/10000000000000000,
   -39491748809814453/100000000000000000, -28444138169288635/100000000000000000,
   -18477343022823334/100000000000000000, -9105003625154495/100000000000000000, 0,
   7958029955625534/100000000000000000, 16093020141124725/100000000000000000,
   24611230194568634/100000000000000000, 33791524171829224/100000000000000000,
   44070982933044434/100000000000000000, 5626170039176941/10000000000000000,
   7229568362236023/10000000000000000, 1]

/-- The NF8 level table of `quantize_8bit_nf8`:
`torch.tanh(torch.linspace(-1, 1, 256) * 2)`.  The hyperbolic tangent is
supplied by the external tensor library and is passed in as a function
parameter; `linspace(-1,1,256)[i] = -1 + 2*i/255`. -/
def nf8_levels (tanh : ℚ → ℚ) : List ℚ :=
  (List.range 256).map (fun i : ℕ => tanh ((-1 + 2 * (i : ℚ) / 255) * 2))

/-- Embeds `torch.argmin` on a list of values: index of the first occurrence of
the minimum (ties resolve to the lower index, as documented by torch). -/
def argminIdx : List ℚ → ℕ
  | [] => 0
  | [_] => 0
  | d :: e :: ds =>
    if (e :: ds).getD (argminIdx (e :: ds)) 0 < d then argminIdx (e :: ds) + 1
    else 0

/-- One element of the codebook quantization:
`torch.argmin(torch.abs(x / abs_max - levels), dim=-1)`. -/
def nfCode (levels : List ℚ) (abs_max x : ℚ) : ℕ :=
  argminIdx (levels.map (fun l => |x / abs_max - l|))

/-- Common core of `quantize_4bit_nf4` / `quantize_8bit_nf8`:
returns `(indices, levels, abs_max)`. -/
def quantize_nf (levels : List ℚ) (xs : List ℚ) : List ℕ × List ℚ × ℚ :=
  (xs.map (nfCode levels (absMax xs)), levels, absMax xs)

/-- Embeds `quantize_4bit_nf4`. -/
def quantize_4bit_nf4 (xs : List ℚ) : List ℕ × List ℚ × ℚ :=
  quantize_nf nf4_levels xs

/-- Embeds `quantize_8bit_nf8` (parametrized by the external `tanh`). -/
def quantize_8bit_nf8 (tanh : ℚ → ℚ) (xs : List ℚ) : List ℕ × List ℚ × ℚ :=
  quantize_nf (nf8_levels tanh) xs

/-- The `nf4`/`nf8` branch of `dequantize_4bit` / `dequantize_8bit`:
`scale_or_levels[q_tensor.long()] * zero_point_or_bias`. -/
def dequantize_nf (levels : List ℚ) (abs_max : ℚ) (code : ℕ) : ℚ :=
  levels.getD code 0 * abs_max

/-- One element of `quantize_4bit_fp4` (`log2` is supplied by the external
tensor library).  Follows the source line by line: sign, absolute value,
`log2(abs + (abs == 0))`, exponent clamped to `[0, 3]` with bias 1,
mantissa `round(abs / 2^(exp - bias) - 1)` clamped to `[0, 1]`, packed as
`(exp << 1) | mantissa`, sign bit `0x8` OR'd in for negative inputs. -/
def fp4Code (log2 : ℚ → ℚ) (x : ℚ) : ℕ :=
  let abs_x := |x|
  let log_x := log2 (abs_x + (if abs_x = 0 then 1 else 0))
  let exp_v := clampI (rnd (log_x + 1)) 0 3
  let mant_v := clampI (rnd (abs_x / (2 : ℚ) ^ (exp_v - 1) - 1)) 0 1
  let q := (exp_v.toNat <<< 1) ||| mant_v.toNat
  if x < 0 then q ||| 0x8 else q

/-- Embeds `quantize_4bit_fp4`: returns `(q_tensor, exp_bias)`; the source also
returns a `None` placeholder in the middle position. -/
def quantize_4bit_fp4 (log2 : ℚ → ℚ) (xs : List ℚ) : List ℕ × ℤ :=
  (xs.map (fp4Code log2), 1)

/-- One element of `quantize_8bit_fp8`: exponent clamped to `[0, 15]` with
bias 7, mantissa `round(abs / 2^(exp - bias) * 8 - 8)` clamped to `[0, 7]`,
packed as `(exp << 3) | mantissa`, sign bit `0x80`. -/
def fp8Code (log2 : ℚ → ℚ) (x : ℚ) : ℕ :=
  let abs_x := |x|
  let log_x := log2 (abs_x + (if abs_x = 0 then 1 else 0))
  let exp_v := clampI (rnd (log_x + 7)) 0 15
  let mant_v := clampI (rnd (abs_x / (2 : ℚ) ^ (exp_v - 7) * 8 - 8)) 0 7
  let q := (exp_v.toNat <<< 3) ||| mant_v.toNat
  if x < 0 then q ||| 0x80 else q

/-- Embeds `quantize_8bit_fp8`: returns `(q_tensor, exp_bias)`. -/
def quantize_8bit_fp8 (log2 : ℚ → ℚ) (xs : List ℚ) : List ℕ × ℤ :=
  (xs.map (fp8Code log2), 7)

/-- The `fp4` branch of `dequantize_4bit`:
`signs = where(q & 0x8, -1, 1)`; `exp = (q >> 1) & 0x3`; `mant = q & 0x1`;
`(1.0 + mant) * 2^(exp - bias) * signs`.  Note the mantissa term is
`1 + mant`, not `1 + mant/2`. -/
def dequantize_4bit_fp4 (bias : ℤ) (q : ℕ) : ℚ :=
  (1 + ((q &&& 0x1 : ℕ) : ℚ)) * (2 : ℚ) ^ ((((q >>> 1) &&& 0x3 : ℕ) : ℤ) - bias) *
    (if q &&& 0x8 ≠ 0 then -1 else 1)

/-- The `fp8` branch of `dequantize_8bit`:
`signs = where(q & 0x80, -1, 1)`; `exp = (q >> 3) & 0x0F`; `mant = q & 0x07`;
`(1.0 + mant/8) * 2^(exp - bias) * signs`. -/
def dequantize_8bit_fp8 (bias : ℤ) (q : ℕ) : ℚ :=
  (1 + ((q &&& 0x7 : ℕ) : ℚ) / 8) * (2 : ℚ) ^ ((((q >>> 3) &&& 0xF : ℕ) : ℤ) - bias) *
    (if q &&& 0x80 ≠ 0 then -1 else 1)

/-- Scheme-specific parameters, as a tagged union (the python source
returns heterogeneous tuples from the dispatch functions). -/
inductive QParams where
  | affine (scale zero_point : ℚ) : QParams
  | codebook (levels : List ℚ) (abs_max : ℚ) : QParams
  | minifloat (exp_bias : ℤ) : QParams
deriving DecidableEq

/-- The dispatcher `quantize_4bit(tensor, quant_type, per_channel=False)`
(default `per_channel=False` path). -/
def quantize_4bit (xs : List ℚ) (quant_type : String) (log2 : ℚ → ℚ) :
    Except String (List ℕ × QParams) :=
  if quant_type = "linear" then
    let r := quantize_4bit_linear xs
    .ok (r.1, .affine r.2.1 r.2.2)
  else if quant_type = "nf4" then
    let r := quantize_4bit_nf4 xs
    .ok (r.1, .codebook r.2.1 r.2.2)
  else if quant_type = "fp4" then
    let r := quantize_4bit_fp4 log2 xs
    .ok (r.1, .minifloat r.2)
  else
    .error ("Unknown quantization type: " ++ quant_type)

/-- Embeds `tensor.min(dim=0, keepdim=True).values` on a 2-D tensor (the
`per_channel` path of the linear quantizers, where `dim = 0` because
`tensor.dim() > 1`): reducing along dimension 0 takes the elementwise
`f` across the rows, leaving one value per column. -/
def colReduce (f : ℚ → ℚ → ℚ) : List (List ℚ) → List ℚ
  | [] => []
  | r :: rs => rs.foldl (List.zipWith f) r

/-- The per-channel parameter computation of `quantize_4bit_linear` /
`quantize_8bit_linear` (`per_channel=True`, 2-D input): per-column
min/max, the degenerate-range guard applied columnwise via
`torch.where`, then `scale = (max - min) / L`, `zero_point = min`. -/
def perChannelParams (L : ℕ) (rows : List (List ℚ)) : List ℚ × List ℚ :=
  (List.zipWith (fun mn mx => (nudgedMax mn mx - mn) / L)
      (colReduce min rows) (colReduce max rows),
   colReduce min rows)

/-- Embeds `quantize_4bit_linear` / `quantize_8bit_linear` with
`per_channel=True` on a 2-D tensor: the parameter vectors are broadcast
across the rows, so element `(i, j)` is quantized with column `j`'s
scale and zero point. -/
def quantize_linear_per_channel (L : ℕ) (rows : List (List ℚ)) :
    List (List ℕ) × List ℚ × List ℚ :=
  ((rows.map (fun r =>
      List.zipWith (fun x sz => linCode L sz.1 sz.2 x) r
        ((perChannelParams L rows).1.zip (perChannelParams L rows).2))),
   perChannelParams L rows)

/-- Definition following the spec words of claim C3 (for comparison with
`perChannelParams`): a separate `(scale, zero_point)` pair for each slice
along the first dimension, i.e. for each row. -/
def perRowParams (L : ℕ) (rows : List (List ℚ)) : List ℚ × List ℚ :=
  (rows.map (fun r => linScale L r), rows.map (fun r => tmin r))

/-- Definition following the spec words of claim C5 (for comparison with
the source dequantizers): minifloat dequantization with `e` exponent
bits and `m` mantissa bits, with magnitude `(1 + mantissa/2^m) * 2^(exponent - bias)`. -/
def mfSpecDeq (e m : ℕ) (bias : ℤ) (q : ℕ) : ℚ :=
  (1 + ((q &&& (2 ^ m - 1) : ℕ) : ℚ) / 2 ^ m) *
    (2 : ℚ) ^ ((((q >>> m) &&& (2 ^ e - 1) : ℕ) : ℤ) - bias) *
    (if (q >>> (e + m)) &&& 1 = 1 then -1 else 1)

/-- The amended FP4 dequantization formula: identical to `mfSpecDeq 2 1`
except that the mantissa term is `1 + mantissa` (the source does not
scale the mantissa by `2^(-m)` in the 4-bit scheme). -/
def mfSpecDeq4 (bias : ℤ) (q : ℕ) : ℚ :=
  (1 + ((q &&& 1 : ℕ) : ℚ)) *
    (2 : ℚ) ^ ((((q >>> 1) &&& 3 : ℕ) : ℤ) - bias) *
    (if (q >>> 3) &&& 1 = 1 then -1 else 1)

/-- The dispatcher `quantize_8bit(tensor, quant_type, per_channel=False)`. -/
def quantize_8bit (xs : List ℚ) (quant_type : String) (log2 tanh : ℚ → ℚ) :
    Except String (List ℕ × QParams) :=
  if quant_type = "linear" then
    let r := quantize_8bit_linear xs
    .ok (r.1, .affine r.2.1 r.2.2)
  else if quant_type = "nf8" then
    let r := quantize_8bit_nf8 tanh xs
    .ok (r.1, .codebook r.2.1 r.2.2)
  else if quant_type = "fp8" then
    let r := quantize_8bit_fp8 log2 xs
    .ok (r.1, .minifloat r.2)
  else
    .error ("Unknown quantization type: " ++ quant_type)

/-- Extract the code tensor from a dispatcher result (`[]` on error). -/
def exCodes (r : Except String (List ℕ × QParams)) : List ℕ :=
  match r with
  | .ok p => p.1
  | .error _ => []

/-! ## Helper lemmas: tensor min/max -/

theorem foldl_min_le_init (xs : List ℚ) (a : ℚ) : xs.foldl min a ≤ a := by
  induction xs generalizing a with
  | nil => exact le_refl a
  | cons y ys ih => exact le_trans (ih (min a y)) (min_le_left a y)

theorem foldl_min_le_mem (xs : List ℚ) (a x : ℚ) (hx : x ∈ xs) :
    xs.foldl min a ≤ x := by
  induction xs generalizing a with
  | nil => cases hx
  | cons y ys ih =>
    rcases List.mem_cons.mp hx with h | h
    · subst h
      exact le_trans (foldl_min_le_init ys (min a x)) (min_le_right a x)
    · exact ih (min a y) h

theorem le_foldl_max_init (xs : List ℚ) (a : ℚ) : a ≤ xs.foldl max a := by
  induction xs generalizing a with
  | nil => exact le_refl a
  | cons y ys ih => exact le_trans (le_max_left a y) (ih (max a y))

theorem le_foldl_max_mem (xs : List ℚ) (a x : ℚ) (hx : x ∈ xs) :
    x ≤ xs.foldl max a := by
  induction xs generalizing a with
  | nil => cases hx
  | cons y ys ih =>
    rcases List.mem_cons.mp hx with h | h
    · subst h
      exact le_trans (le_max_right a x) (le_foldl_max_init ys (max a x))
    · exact ih (max a y) h

theorem tmin_le_mem (xs : List ℚ) (x : ℚ) (hx : x ∈ xs) : tmin xs ≤ x := by
  cases xs with
  | nil => cases hx
  | cons y ys =>
    rcases List.mem_cons.mp hx with h | h
    · subst h; exact foldl_min_le_init ys x
    · exact foldl_min_le_mem ys y x h

theorem le_tmax_mem (xs : List ℚ) (x : ℚ) (hx : x ∈ xs) : x ≤ tmax xs := by
  cases xs with
  | nil => cases hx
  | cons y ys =>
    rcases List.mem_cons.mp hx with h | h
    · subst h; exact le_foldl_max_init ys x
    · exact le_foldl_max_mem ys y x h

theorem tmin_le_tmax (xs : List ℚ) (h : xs ≠ []) : tmin xs ≤ tmax xs := by
  cases xs with
  | nil => exact absurd rfl h
  | cons y ys =>
    exact le_trans (tmin_le_mem (y :: ys) y (List.mem_cons_self y ys))
      (le_tmax_mem (y :: ys) y (List.mem_cons_self y ys))

theorem eq_tmin_of_const (xs : List ℚ) (x : ℚ) (hx : x ∈ xs)
    (h : tmax xs = tmin xs) : x = tmin xs :=
  le_antisymm (h ▸ le_tmax_mem xs x hx) (tmin_le_mem xs x hx)

/-! ## Helper lemmas: rounding and clamping -/

theorem floor_le_rnd (q : ℚ) : ⌊q⌋ ≤ rnd q := by
  unfold rnd; split_ifs <;> omega

theorem rnd_le_floor_add_one (q : ℚ) : rnd q ≤ ⌊q⌋ + 1 := by
  unfold rnd; split_ifs <;> omega

theorem rnd_intCast (n : ℤ) : rnd (n : ℚ) = n := by
  unfold rnd
  rw [Int.floor_intCast]
  norm_num

theorem abs_rnd_sub_le (q : ℚ) : |(rnd q : ℚ) - q| ≤ 1/2 := by
  have h1 : (⌊q⌋ : ℚ) ≤ q := Int.floor_le q
  have h2 : q < (⌊q⌋ : ℚ) + 1 := Int.lt_floor_add_one q
  unfold rnd
  split_ifs with hlt hgt heven
  · rw [abs_le]; constructor <;> linarith
  · rw [abs_le]; push_cast; constructor <;> linarith
  · rw [abs_le]; constructor <;> linarith
  · rw [abs_le]; push_cast; constructor <;> linarith

theorem rnd_mono {x y : ℚ} (h : x ≤ y) : rnd x ≤ rnd y := by
  have hf : ⌊x⌋ ≤ ⌊y⌋ := Int.floor_le_floor h
  rcases lt_or_eq_of_le hf with hlt | heq
  · exact le_trans (rnd_le_floor_add_one x) (le_trans hlt (floor_le_rnd y))
  · have hfr : x - ⌊x⌋ ≤ y - ⌊y⌋ := by
      rw [← heq]; linarith
    unfold rnd
    rw [← heq]
    split_ifs <;> first | omega | (exfalso; linarith)

theorem le_clampI (x lo hi : ℤ) : lo ≤ clampI x lo hi := le_max_left lo _

theorem clampI_le (x lo hi : ℤ) (h : lo ≤ hi) : clampI x lo hi ≤ hi :=
  max_le h (min_le_right x hi)

theorem clampI_eq_self (x lo hi : ℤ) (h1 : lo ≤ x) (h2 : x ≤ hi) :
    clampI x lo hi = x := by
  unfold clampI; omega

theorem clampI_mono {x y : ℤ} (lo hi : ℤ) (h : x ≤ y) :
    clampI x lo hi ≤ clampI y lo hi := by
  unfold clampI; omega

theorem clampI_toNat_le (x hi : ℤ) : (clampI x 0 hi).toNat ≤ hi.toNat := by
  unfold clampI; omega

/-! ## Helper lemmas: argmin -/

theorem argminIdx_lt_length (ds : List ℚ) (h : ds ≠ []) :
    argminIdx ds < ds.length := by
  induction ds with
  | nil => exact absurd rfl h
  | cons d tail ih =>
    cases tail with
    | nil => simp [argminIdx]
    | cons e ds =>
      rw [argminIdx]
      split_ifs
      · simpa using ih (by simp)
      · simp

theorem argminIdx_min (ds : List ℚ) (j : ℕ) (hj : j < ds.length) :
    ds.getD (argminIdx ds) 0 ≤ ds.getD j 0 := by
  induction ds generalizing j with
  | nil => simp at hj
  | cons d tail ih =>
    cases tail with
    | nil =>
      have hj0 : j = 0 := by simp at hj; omega
      subst hj0
      simp [argminIdx]
    | cons e ds =>
      rw [argminIdx]
      split_ifs with hlt
      · cases j with
        | zero => simpa using le_of_lt hlt
        | succ k => simpa using ih k (by simpa using hj)
      · cases j with
        | zero => simp
        | succ k =>
          push_neg at hlt
          simpa using le_trans hlt (ih k (by simpa using hj))

theorem argminIdx_first (ds : List ℚ) (j : ℕ) (hj : j < argminIdx ds) :
    ds.getD (argminIdx ds) 0 < ds.getD j 0 := by
  induction ds generalizing j with
  | nil => simp [argminIdx] at hj
  | cons d tail ih =>
    cases tail with
    | nil => simp [argminIdx] at hj
    | cons e ds =>
      rw [argminIdx] at hj ⊢
      by_cases hlt : (e :: ds).getD (argminIdx (e :: ds)) 0 < d
      · rw [if_pos hlt] at hj ⊢
        cases j with
        | zero => simpa using hlt
        | succ k =>
          have hk : k < argminIdx (e :: ds) := by omega
          simpa using ih k hk
      · rw [if_neg hlt] at hj
        omega

/-! ## Helper lemmas: getD through map / zipWith -/

theorem getD_map {α β : Type} (f : α → β) (l : List α) (j : ℕ)
    (hj : j < l.length) (da : α) (db : β) :
    (l.map f).getD j db = f (l.getD j da) := by
  induction l generalizing j with
  | nil => simp at hj
  | cons x xs ih =>
    cases j with
    | zero => simp
    | succ k => simpa using ih k (by simpa using hj)

theorem getD_zipWith {α β γ : Type} (f : α → β → γ) (a : List α) (b : List β)
    (j : ℕ) (hja : j < a.length) (hjb : j < b.length) (da : α) (db : β)
    (dc : γ) :
    (List.zipWith f a b).getD j dc = f (a.getD j da) (b.getD j db) := by
  induction a generalizing b j with
  | nil => simp at hja
  | cons x xs ih =>
    cases b with
    | nil => simp at hjb
    | cons y ys =>
      cases j with
      | zero => simp
      | succ k =>
        simpa using ih ys k (by simpa using hja) (by simpa using hjb)

/-! ## Helper lemmas: code ranges -/

theorem linCode_le (L : ℕ) (s mv x : ℚ) : linCode L s mv x ≤ L := by
  have := clampI_toNat_le (rnd ((x - mv) / s)) (L : ℤ)
  simpa [linCode] using this

theorem nfCode_lt (levels : List ℚ) (h : levels ≠ []) (am x : ℚ) :
    nfCode levels am x < levels.length := by
  have := argminIdx_lt_length (levels.map (fun l => |x / am - l|)) (by simpa using h)
  simpa [nfCode] using this

theorem fp4Code_le (lg : ℚ → ℚ) (x : ℚ) : fp4Code lg x ≤ 15 := by
  simp only [fp4Code]
  set ev := clampI (rnd (lg (|x| + if |x| = 0 then 1 else 0) + 1)) 0 3 with hev
  set mv := clampI (rnd (|x| / (2:ℚ) ^ (ev - 1) - 1)) 0 1 with hmv
  have he : ev.toNat ≤ 3 := by
    rw [hev]; have := clampI_toNat_le (rnd (lg (|x| + if |x| = 0 then 1 else 0) + 1)) 3
    omega
  have hm : mv.toNat ≤ 1 := by
    rw [hmv]; have := clampI_toNat_le (rnd (|x| / (2:ℚ) ^ (ev - 1) - 1)) 1
    omega
  have h1 : ev.toNat <<< 1 < 8 := by
    rw [Nat.shiftLeft_eq]
    omega
  have h2 : ev.toNat <<< 1 ||| mv.toNat < 8 :=
    Nat.or_lt_two_pow (n := 3) h1 (by omega)
  have h3 : ev.toNat <<< 1 ||| mv.toNat ||| 8 < 16 :=
    Nat.or_lt_two_pow (n := 4) (by omega) (by omega)
  split_ifs <;> omega

theorem fp8Code_le (lg : ℚ → ℚ) (x : ℚ) : fp8Code lg x ≤ 255 := by
  simp only [fp8Code]
  set ev := clampI (rnd (lg (|x| + if |x| = 0 then 1 else 0) + 7)) 0 15 with hev
  set mv := clampI (rnd (|x| / (2:ℚ) ^ (ev - 7) * 8 - 8)) 0 7 with hmv
  have he : ev.toNat ≤ 15 := by
    rw [hev]; have := clampI_toNat_le (rnd (lg (|x| + if |x| = 0 then 1 else 0) + 7)) 15
    omega
  have hm : mv.toNat ≤ 7 := by
    rw [hmv]; have := clampI_toNat_le (rnd (|x| / (2:ℚ) ^ (ev - 7) * 8 - 8)) 7
    omega
  have h1 : ev.toNat <<< 3 < 128 := by
    rw [Nat.shiftLeft_eq]
    omega
  have h2 : ev.toNat <<< 3 ||| mv.toNat < 128 :=
    Nat.or_lt_two_pow (n := 7) h1 (by omega)
  have h3 : ev.toNat <<< 3 ||| mv.toNat ||| 128 < 256 :=
    Nat.or_lt_two_pow (n := 8) (by omega) (by omega)
  split_ifs <;> omega

/-! ## Helper lemmas: the linear scheme -/

theorem linScale_pos (L : ℕ) (hL : 0 < L) (xs : List ℚ) (h : xs ≠ []) :
    0 < linScale L xs := by
  have hmm := tmin_le_tmax xs h
  unfold linScale nudgedMax
  have hL' : (0 : ℚ) < L := by exact_mod_cast hL
  split_ifs with hc
  · rw [div_pos_iff]
    left
    constructor <;> linarith
  · have hlt : tmin xs < tmax xs := lt_of_le_of_ne hmm (fun he => hc he.symm)
    rw [div_pos_iff]
    left
    constructor <;> linarith

theorem rnd_zero : rnd 0 = 0 := by
  simpa using rnd_intCast 0

theorem lin_roundtrip_le (L : ℕ) (hL : 0 < L) (xs : List ℚ) (x : ℚ)
    (hx : x ∈ xs) :
    |dequantize_linear (linCode L (linScale L xs) (tmin xs) x)
        (linScale L xs) (tmin xs) - x| ≤ linScale L xs / 2 := by
  have hxne : xs ≠ [] := by rintro rfl; cases hx
  have hs : 0 < linScale L xs := linScale_pos L hL xs hxne
  have hL' : (0 : ℚ) < L := by exact_mod_cast hL
  by_cases hc : tmax xs = tmin xs
  · have hxeq : x = tmin xs := eq_tmin_of_const xs x hx hc
    have ht : (x - tmin xs) / linScale L xs = 0 := by
      rw [hxeq]; simp
    unfold dequantize_linear linCode
    rw [ht, rnd_zero, clampI_eq_self 0 0 L le_rfl (by positivity)]
    rw [hxeq]
    simp
    positivity
  · have hmx : nudgedMax (tmin xs) (tmax xs) = tmax xs := by
      unfold nudgedMax; rw [if_neg hc]
    have hsdef : linScale L xs = (tmax xs - tmin xs) / L := by
      unfold linScale; rw [hmx]
    set s := linScale L xs with hsd
    set mn := tmin xs with hmnd
    set t := (x - mn) / s with htd
    have ht0 : 0 ≤ t := by
      apply div_nonneg _ (le_of_lt hs)
      have := tmin_le_mem xs x hx
      linarith
    have htL : t ≤ (L : ℚ) := by
      rw [htd, div_le_iff₀ hs]
      have hxle := le_tmax_mem xs x hx
      have hLs : (L : ℚ) * s = tmax xs - mn := by
        rw [hsdef]
        field_simp
      rw [hLs]
      linarith
    have hr0 : 0 ≤ rnd t := by
      have := rnd_mono ht0
      rwa [rnd_zero] at this
    have hLrnd : rnd ((L : ℚ)) = (L : ℤ) := by
      rw [show ((L : ℚ)) = (((L : ℤ) : ℚ)) by push_cast; rfl]
      exact rnd_intCast (L : ℤ)
    have hrL : rnd t ≤ (L : ℤ) := by
      rw [← hLrnd]
      exact rnd_mono htL
    have hcl : clampI (rnd t) 0 L = rnd t := clampI_eq_self _ 0 L hr0 hrL
    unfold dequantize_linear linCode
    rw [← htd, hcl]
    have htn : (((rnd t).toNat : ℕ) : ℚ) = ((rnd t : ℤ) : ℚ) := by
      have := Int.toNat_of_nonneg hr0
      exact_mod_cast congrArg (fun z : ℤ => (z : ℚ)) this
    rw [htn]
    have hxt : x = mn + t * s := by
      rw [htd]
      field_simp
    have hdiff : ((rnd t : ℤ) : ℚ) * s + mn - x = s * ((rnd t : ℤ) - t) := by
      rw [hxt]; ring
    rw [hdiff, abs_mul, abs_of_pos hs]
    have := abs_rnd_sub_le t
    calc s * |((rnd t : ℤ) : ℚ) - t| ≤ s * (1/2) := by
          exact mul_le_mul_of_nonneg_left this (le_of_lt hs)
      _ = s / 2 := by ring

theorem linCode_mono (L : ℕ) {s : ℚ} (hs : 0 < s) (mv : ℚ) {x1 x2 : ℚ}
    (h : x1 ≤ x2) : linCode L s mv x1 ≤ linCode L s mv x2 := by
  unfold linCode
  have hdiv : (x1 - mv) / s ≤ (x2 - mv) / s := by gcongr
  have := clampI_mono 0 (L : ℤ) (rnd_mono hdiv)
  omega

/-! ## Claim theorems -/

/-- C1: for every input tensor, every scheme tag (linear, nf4/nf8,
fp4/fp8) and both bit widths `b ∈ {4, 8}`, every element of the code
tensor returned by the quantizer lies in `[0, 2^b - 1]` (codes are
naturals, so only the upper bound is substantive). -/
theorem C1_code_range (xs : List ℚ) (lg th : ℚ → ℚ) (i : ℕ)
    (hi : i < xs.length) :
    (quantize_4bit_linear xs).1.getD i 0 ≤ 15 ∧
    (quantize_4bit_nf4 xs).1.getD i 0 ≤ 15 ∧
    (quantize_4bit_fp4 lg xs).1.getD i 0 ≤ 15 ∧
    (quantize_8bit_linear xs).1.getD i 0 ≤ 255 ∧
    (quantize_8bit_nf8 th xs).1.getD i 0 ≤ 255 ∧
    (quantize_8bit_fp8 lg xs).1.getD i 0 ≤ 255 := by
  refine ⟨?_, ?_, ?_, ?_, ?_, ?_⟩
  · show (xs.map (linCode 15 (linScale 15 xs) (tmin xs))).getD i 0 ≤ 15
    rw [getD_map _ xs i hi 0 0]
    exact linCode_le 15 _ _ _
  · show (xs.map (nfCode nf4_levels (absMax xs))).getD i 0 ≤ 15
    rw [getD_map _ xs i hi 0 0]
    have := nfCode_lt nf4_levels (by simp [nf4_levels]) (absMax xs) (xs.getD i 0)
    have hlen : nf4_levels.length = 16 := rfl
    omega
  · show (xs.map (fp4Code lg)).getD i 0 ≤ 15
    rw [getD_map _ xs i hi 0 0]
    exact fp4Code_le lg _
  · show (xs.map (linCode 255 (linScale 255 xs) (tmin xs))).getD i 0 ≤ 255
    rw [getD_map _ xs i hi 0 0]
    exact linCode_le 255 _ _ _
  · show (xs.map (nfCode (nf8_levels th) (absMax xs))).getD i 0 ≤ 255
    rw [getD_map _ xs i hi 0 0]
    have hlen : (nf8_levels th).length = 256 := by
      unfold nf8_levels
      rw [List.length_map, List.length_range]
    have := nfCode_lt (nf8_levels th) (by rw [← List.length_pos]; omega)
      (absMax xs) (xs.getD i 0)
    omega
  · show (xs.map (fp8Code lg)).getD i 0 ≤ 255
    rw [getD_map _ xs i hi 0 0]
    exact fp8Code_le lg _

theorem C1_code_range_witness :
    0 < List.length [(1 : ℚ)] ∧
    ((quantize_4bit_linear [(1:ℚ)]).1.getD 0 0 ≤ 15 ∧
     (quantize_4bit_nf4 [(1:ℚ)]).1.getD 0 0 ≤ 15 ∧
     (quantize_4bit_fp4 (fun _ => 0) [(1:ℚ)]).1.getD 0 0 ≤ 15 ∧
     (quantize_8bit_linear [(1:ℚ)]).1.getD 0 0 ≤ 255 ∧
     (quantize_8bit_nf8 (fun _ => 0) [(1:ℚ)]).1.getD 0 0 ≤ 255 ∧
     (quantize_8bit_fp8 (fun _ => 0) [(1:ℚ)]).1.getD 0 0 ≤ 255) :=
  ⟨by decide, C1_code_range [(1:ℚ)] (fun _ => 0) (fun _ => 0) 0 (by decide)⟩

/-- C2: for the linear scheme at either level count `L` (15 for 4-bit,
255 for 8-bit), every element of the input tensor reconstructs to within
`scale/2` plus the guard epsilon where the degenerate-range nudge
applied: `|dequantize(quantize(x)) - x| <= scale/2 + eps`. -/
theorem C2_affine_roundtrip (L : ℕ) (hL : 0 < L) (xs : List ℚ) (i : ℕ)
    (hi : i < xs.length) :
    |dequantize_linear ((quantize_linear L xs).1.getD i 0)
        (quantize_linear L xs).2.1 (quantize_linear L xs).2.2 -
      xs.getD i 0| ≤
      (quantize_linear L xs).2.1 / 2 +
        (if tmax xs = tmin xs then 1/1000000 else 0) := by
  have hmem : xs.getD i 0 ∈ xs := by
    rw [List.getD_eq_getElem xs 0 hi]
    exact List.getElem_mem hi
  have hcode : (quantize_linear L xs).1.getD i 0 =
      linCode L (linScale L xs) (tmin xs) (xs.getD i 0) := by
    show (xs.map (linCode L (linScale L xs) (tmin xs))).getD i 0 = _
    rw [getD_map _ xs i hi 0 0]
  have h := lin_roundtrip_le L hL xs (xs.getD i 0) hmem
  have hs := linScale_pos L hL xs (by rintro rfl; cases hmem)
  show |dequantize_linear ((quantize_linear L xs).1.getD i 0)
      (linScale L xs) (tmin xs) - xs.getD i 0| ≤
    linScale L xs / 2 + (if tmax xs = tmin xs then 1/1000000 else 0)
  rw [hcode]
  split_ifs <;> linarith

theorem C2_affine_roundtrip_witness :
    0 < 255 ∧ 0 < List.length [(0 : ℚ), 2] ∧
    |dequantize_linear ((quantize_linear 255 [(0:ℚ), 2]).1.getD 0 0)
        (quantize_linear 255 [(0:ℚ), 2]).2.1
        (quantize_linear 255 [(0:ℚ), 2]).2.2 - [(0:ℚ), 2].getD 0 0| ≤
      (quantize_linear 255 [(0:ℚ), 2]).2.1 / 2 +
        (if tmax [(0:ℚ), 2] = tmin [(0:ℚ), 2] then 1/1000000 else 0) :=
  ⟨by decide, by decide,
    C2_affine_roundtrip 255 (by decide) [(0:ℚ), 2] 0 (by decide)⟩

/-- C10: minifloat dequantization never returns zero: with the biases
produced by the quantizers (1 for FP4, 7 for FP8), the FP4 result has
absolute value at least `2^(0-1) = 1/2` and the FP8 result at least
`2^(0-7) = 1/128`, for every code value. -/
theorem abs_mul_sign_lower (A c : ℚ) (hA : 0 < A) (hcA : c ≤ A) (s : ℚ)
    (hs : s = -1 ∨ s = 1) : c ≤ |A * s| ∧ A * s ≠ 0 := by
  rcases hs with rfl | rfl
  · rw [mul_neg_one, abs_neg, abs_of_pos hA]
    refine ⟨hcA, ?_⟩
    intro h
    rw [neg_eq_zero] at h
    exact (ne_of_gt hA) h
  · rw [mul_one, abs_of_pos hA]
    exact ⟨hcA, ne_of_gt hA⟩

theorem C10_minifloat_never_zero (q : ℕ) :
    ((1:ℚ)/2 ≤ |dequantize_4bit_fp4 1 q| ∧ dequantize_4bit_fp4 1 q ≠ 0) ∧
    ((1:ℚ)/128 ≤ |dequantize_8bit_fp8 7 q| ∧ dequantize_8bit_fp8 7 q ≠ 0) := by
  constructor
  · unfold dequantize_4bit_fp4
    have hm0 : (0:ℚ) ≤ ((q &&& 1 : ℕ) : ℚ) := by positivity
    have he0 : (0:ℤ) ≤ (((q >>> 1) &&& 3 : ℕ) : ℤ) := by positivity
    refine abs_mul_sign_lower _ _ (by positivity) ?_ _ (by split_ifs <;> simp)
    calc (1:ℚ)/2 = (2:ℚ) ^ (-1:ℤ) := by norm_num
      _ ≤ (2:ℚ) ^ ((((q >>> 1) &&& 3 : ℕ) : ℤ) - 1) :=
          zpow_le_zpow_right₀ one_le_two (by omega)
      _ ≤ (1 + ((q &&& 1 : ℕ) : ℚ)) *
            (2:ℚ) ^ ((((q >>> 1) &&& 3 : ℕ) : ℤ) - 1) :=
          le_mul_of_one_le_left (by positivity)
            (by exact_mod_cast Nat.le_add_right 1 (q &&& 1))
  · unfold dequantize_8bit_fp8
    have hm0 : (0:ℚ) ≤ ((q &&& 7 : ℕ) : ℚ) := by positivity
    have he0 : (0:ℤ) ≤ (((q >>> 3) &&& 15 : ℕ) : ℤ) := by positivity
    refine abs_mul_sign_lower _ _ (by positivity) ?_ _ (by split_ifs <;> simp)
    calc (1:ℚ)/128 = (2:ℚ) ^ (-7:ℤ) := by norm_num
      _ ≤ (2:ℚ) ^ ((((q >>> 3) &&& 15 : ℕ) : ℤ) - 7) :=
          zpow_le_zpow_right₀ one_le_two (by omega)
      _ ≤ (1 + ((q &&& 7 : ℕ) : ℚ) / 8) *
            (2:ℚ) ^ ((((q >>> 3) &&& 15 : ℕ) : ℤ) - 7) :=
          le_mul_of_one_le_left (by positivity)
            (by have h := hm0; linarith)

theorem shift_and_one_iff (q k : ℕ) :
    ((q >>> k) &&& 1 = 1) ↔ (q &&& 2 ^ k ≠ 0) := by
  have h1 : q &&& 2 ^ k = (q.testBit k).toNat * 2 ^ k := Nat.and_two_pow q k
  have h2 : (q >>> k) &&& 1 = (q >>> k) % 2 := Nat.and_one_is_mod _
  have h3 : q.testBit k = decide (q / 2 ^ k % 2 = 1) :=
    Nat.testBit_to_div_mod (x := q) (i := k)
  rw [h1, h2, Nat.shiftRight_eq_div_pow]
  rcases Bool.eq_false_or_eq_true (q.testBit k) with hb | hb <;>
    rw [hb] at h3 ⊢ <;> simp_all

/-- C8: the quantize dispatchers raise the unknown-scheme error exactly
for tags outside the recognized set of the requested bit width
(`linear|nf4|fp4` for 4-bit, `linear|nf8|fp8` for 8-bit); recognized
tags never error at dispatch. -/
theorem C8_dispatch_rejection (xs : List ℚ) (lg th : ℚ → ℚ) (tag : String) :
    ((∃ e, quantize_4bit xs tag lg = .error e) ↔
      ¬(tag = "linear" ∨ tag = "nf4" ∨ tag = "fp4")) ∧
    ((∃ e, quantize_8bit xs tag lg th = .error e) ↔
      ¬(tag = "linear" ∨ tag = "nf8" ∨ tag = "fp8")) := by
  constructor
  · unfold quantize_4bit
    split_ifs with h1 h2 h3 <;> simp_all
  · unfold quantize_8bit
    split_ifs with h1 h2 h3 <;> simp_all

/-- C5 counterexample: at code 1 (exponent field 0, mantissa 1) with the
FP4 bias 1, the source FP4 dequantizer returns `(1 + 1) * 2^(0-1) = 1`,
while the claimed formula `(1 + mantissa/2^m) * 2^(exponent-bias)`
yields `3/4`. -/
theorem C5_cex_fp4_mantissa :
    dequantize_4bit_fp4 1 1 = 1 ∧ mfSpecDeq 2 1 1 1 = 3/4 ∧
    (1:ℚ) ≠ 3/4 := by
  refine ⟨?_, ?_, by norm_num⟩
  · norm_num [dequantize_4bit_fp4, (by decide : ((1:ℕ) &&& 1) = 1),
      (by decide : ((1:ℕ) >>> 1 &&& 3) = 0), (by decide : ((1:ℕ) &&& 8) = 0)]
  · norm_num [mfSpecDeq, (by decide : ((1:ℕ) &&& (2^1 - 1)) = 1),
      (by decide : ((1:ℕ) >>> 1 &&& (2^2 - 1)) = 0),
      (by decide : ((1:ℕ) >>> 1 &&& 3) = 0),
      (by decide : ((1:ℕ) >>> (2 + 1) &&& 1) = 0)]

/-- C5 amended: the FP8 dequantizer computes exactly the claimed
unpacking `(1 + mantissa/2^m) * 2^(exponent - bias)` with the sign bit
at position `e+m`; the FP4 dequantizer computes the same unpacking
except that its mantissa term is `1 + mantissa` (not `1 + mantissa/2^m`),
for every bias and every code value. -/
theorem C5_amended_minifloat_unpack (bias : ℤ) (q : ℕ) :
    dequantize_8bit_fp8 bias q = mfSpecDeq 4 3 bias q ∧
    dequantize_4bit_fp4 bias q = mfSpecDeq4 bias q := by
  constructor
  · unfold dequantize_8bit_fp8 mfSpecDeq
    have hm : (2:ℕ)^3 - 1 = 7 := by norm_num
    have he : (2:ℕ)^4 - 1 = 15 := by norm_num
    have hk : 4 + 3 = 7 := by norm_num
    rw [hm, he, hk]
    have hs := shift_and_one_iff q 7
    rw [(by norm_num : (2:ℕ)^7 = 128)] at hs
    by_cases hc : q &&& 128 ≠ 0
    · rw [if_pos hc, if_pos (hs.mpr hc)]
      norm_num
    · rw [if_neg hc, if_neg (fun h => hc (hs.mp h))]
      norm_num
  · unfold dequantize_4bit_fp4 mfSpecDeq4
    have hs := shift_and_one_iff q 3
    rw [(by norm_num : (2:ℕ)^3 = 8)] at hs
    by_cases hc : q &&& 8 ≠ 0
    · rw [if_pos hc, if_pos (hs.mpr hc)]
    · rw [if_neg hc, if_neg (fun h => hc (hs.mp h))]

/-- C6: quantizing a degenerate (constant, including all-zero) tensor
never fails: for every recognized scheme tag at either bit width the
dispatcher returns a result whose codes all lie in range; numeric edge
cases are absorbed rather than raised, the dispatch error being the only
error. -/
theorem C6_degenerate_safe (n : ℕ) (c : ℚ) (lg th : ℚ → ℚ) (tag : String)
    (i : ℕ) :
    ((tag = "linear" ∨ tag = "nf4" ∨ tag = "fp4") →
      (quantize_4bit (List.replicate (n+1) c) tag lg).isOk = true ∧
      (i < n + 1 →
        (exCodes (quantize_4bit (List.replicate (n+1) c) tag lg)).getD i 0 ≤ 15)) ∧
    ((tag = "linear" ∨ tag = "nf8" ∨ tag = "fp8") →
      (quantize_8bit (List.replicate (n+1) c) tag lg th).isOk = true ∧
      (i < n + 1 →
        (exCodes (quantize_8bit (List.replicate (n+1) c) tag lg th)).getD i 0 ≤ 255)) := by
  have hlen : (List.replicate (n+1) c).length = n + 1 := List.length_replicate _ _
  constructor
  · rintro (rfl | rfl | rfl)
    · refine ⟨rfl, fun hi => ?_⟩
      show ((List.replicate (n+1) c).map
        (linCode 15 (linScale 15 _) (tmin _))).getD i 0 ≤ 15
      rw [getD_map _ _ i (by omega) 0 0]
      exact linCode_le 15 _ _ _
    · refine ⟨rfl, fun hi => ?_⟩
      show ((List.replicate (n+1) c).map
        (nfCode nf4_levels (absMax _))).getD i 0 ≤ 15
      rw [getD_map _ _ i (by omega) 0 0]
      have := nfCode_lt nf4_levels (by simp [nf4_levels]) (absMax (List.replicate (n+1) c))
        ((List.replicate (n+1) c).getD i 0)
      have hl : nf4_levels.length = 16 := rfl
      omega
    · refine ⟨rfl, fun hi => ?_⟩
      show ((List.replicate (n+1) c).map (fp4Code lg)).getD i 0 ≤ 15
      rw [getD_map _ _ i (by omega) 0 0]
      exact fp4Code_le lg _
  · rintro (rfl | rfl | rfl)
    · refine ⟨rfl, fun hi => ?_⟩
      show ((List.replicate (n+1) c).map
        (linCode 255 (linScale 255 _) (tmin _))).getD i 0 ≤ 255
      rw [getD_map _ _ i (by omega) 0 0]
      exact linCode_le 255 _ _ _
    · refine ⟨rfl, fun hi => ?_⟩
      show ((List.replicate (n+1) c).map
        (nfCode (nf8_levels th) (absMax _))).getD i 0 ≤ 255
      rw [getD_map _ _ i (by omega) 0 0]
      have hl : (nf8_levels th).length = 256 := by
        unfold nf8_levels
        rw [List.length_map, List.length_range]
      have := nfCode_lt (nf8_levels th) (by rw [← List.length_pos]; omega)
        (absMax (List.replicate (n+1) c)) ((List.replicate (n+1) c).getD i 0)
      omega
    · refine ⟨rfl, fun hi => ?_⟩
      show ((List.replicate (n+1) c).map (fp8Code lg)).getD i 0 ≤ 255
      rw [getD_map _ _ i (by omega) 0 0]
      exact fp8Code_le lg _

theorem C6_degenerate_safe_witness :
    ("linear" = "linear" ∨ "linear" = "nf4" ∨ "linear" = "fp4") ∧
    ((quantize_4bit (List.replicate 1 (5:ℚ)) "linear" (fun _ => 0)).isOk = true ∧
      (0 < 1 →
        (exCodes (quantize_4bit (List.replicate 1 (5:ℚ)) "linear" (fun _ => 0))).getD 0 0 ≤ 15)) ∧
    ((quantize_8bit (List.replicate 1 (5:ℚ)) "linear" (fun _ => 0) (fun _ => 0)).isOk = true ∧
      (0 < 1 →
        (exCodes (quantize_8bit (List.replicate 1 (5:ℚ)) "linear" (fun _ => 0) (fun _ => 0))).getD 0 0 ≤ 255)) :=
  ⟨Or.inl rfl,
    (C6_degenerate_safe 0 5 (fun _ => 0) (fun _ => 0) "linear" 0).1 (Or.inl rfl),
    (C6_degenerate_safe 0 5 (fun _ => 0) (fun _ => 0) "linear" 0).2 (Or.inl rfl)⟩

/-- C7 counterexample: quantizing `0.0` with FP4 (using any `log2` that
is exact at 1, here the constant-zero function) produces code 2
(exponent field = bias = 1, mantissa 0, sign bit clear), and
dequantizing code 2 returns exactly 1 — not the claimed magnitude
`2^(0 - bias)` scaled by the mantissa term, which is
`(1 + 0/2) * 2^(0-1) = 1/2`. -/
theorem C7_cex_zero_magnitude :
    (quantize_4bit_fp4 (fun _ => 0) [0]).1 = [2] ∧
    dequantize_4bit_fp4 1 2 = 1 ∧
    (1 + (0:ℚ)/2) * (2:ℚ) ^ ((0:ℤ) - 1) = 1/2 ∧
    (1:ℚ) ≠ 1/2 := by
  refine ⟨?_, ?_, by norm_num, by norm_num⟩
  · show [fp4Code (fun _ => 0) 0] = [2]
    norm_num [fp4Code, clampI, rnd, (by decide : ((1:ℕ) <<< 1) = 2)]
  · norm_num [dequantize_4bit_fp4, (by decide : ((2:ℕ) &&& 1) = 0),
      (by decide : ((2:ℕ) >>> 1 &&& 3) = 1), (by decide : ((2:ℕ) &&& 8) = 0)]

/-- C7 amended: for both minifloat schemes and any `log2` function with
`log2 1 = 0`, quantizing `0.0` yields the code whose exponent field
equals the bias (FP4: code 2; FP8: code 56) with mantissa 0 and a clear
sign bit, and dequantizing returns exactly `1 = (1 + 0) * 2^(bias - bias)`
— a finite, positive value. -/
theorem C7_amended_zero_roundtrip (lg : ℚ → ℚ) (h : lg 1 = 0) :
    (quantize_4bit_fp4 lg [0]).1 = [2] ∧
    dequantize_4bit_fp4 1 2 = 1 ∧ ¬(2:ℕ).testBit 3 ∧
    (quantize_8bit_fp8 lg [0]).1 = [56] ∧
    dequantize_8bit_fp8 7 56 = 1 ∧ ¬(56:ℕ).testBit 7 := by
  refine ⟨?_, ?_, by decide, ?_, ?_, by decide⟩
  · show [fp4Code lg 0] = [2]
    norm_num [fp4Code, clampI, rnd, h, (by decide : ((1:ℕ) <<< 1) = 2)]
  · norm_num [dequantize_4bit_fp4, (by decide : ((2:ℕ) &&& 1) = 0),
      (by decide : ((2:ℕ) >>> 1 &&& 3) = 1), (by decide : ((2:ℕ) &&& 8) = 0)]
  · show [fp8Code lg 0] = [56]
    norm_num [fp8Code, clampI, rnd, h, (by decide : (Int.toNat 7 <<< 3) = 56)]
  · norm_num [dequantize_8bit_fp8, (by decide : ((56:ℕ) &&& 128) = 0),
      (by decide : ((56:ℕ) >>> 3 &&& 15) = 7), (by decide : ((56:ℕ) &&& 7) = 0)]

theorem C7_amended_zero_roundtrip_witness :
    ((fun _ : ℚ => (0:ℚ)) 1 = 0) ∧
    ((quantize_4bit_fp4 (fun _ => 0) [0]).1 = [2] ∧
     dequantize_4bit_fp4 1 2 = 1 ∧ ¬(2:ℕ).testBit 3 ∧
     (quantize_8bit_fp8 (fun _ => 0) [0]).1 = [56] ∧
     dequantize_8bit_fp8 7 56 = 1 ∧ ¬(56:ℕ).testBit 7) :=
  ⟨rfl, C7_amended_zero_roundtrip (fun _ => 0) rfl⟩

theorem nfCode_nearest (ls : List ℚ) (hls : ls ≠ []) (am x : ℚ) (j : ℕ)
    (hj : j < ls.length) :
    |x / am - ls.getD (nfCode ls am x) 0| ≤ |x / am - ls.getD j 0| ∧
    (j < nfCode ls am x →
      |x / am - ls.getD (nfCode ls am x) 0| < |x / am - ls.getD j 0|) := by
  set D := ls.map (fun l => |x / am - l|) with hD
  have hDlen : D.length = ls.length := List.length_map _ _
  have hcode : nfCode ls am x = argminIdx D := rfl
  have hne : D ≠ [] := by
    rw [hD]
    simpa using hls
  have hlt : argminIdx D < D.length := argminIdx_lt_length D hne
  have e1 : D.getD (argminIdx D) 0 = |x / am - ls.getD (argminIdx D) 0| :=
    getD_map _ ls (argminIdx D) (by omega) 0 0
  have e2 : D.getD j 0 = |x / am - ls.getD j 0| :=
    getD_map _ ls j hj 0 0
  constructor
  · have h := argminIdx_min D j (by omega)
    rw [e1, e2] at h
    rw [hcode]
    exact h
  · intro hjc
    rw [hcode] at hjc ⊢
    have h := argminIdx_first D j hjc
    rw [e1, e2] at h
    exact h

/-- C4: for both codebook schemes (nf4 and nf8), every element's code
indexes a table entry at minimal absolute distance to `x / abs_max`
among all table entries, and on ties the lower index wins (every entry
below the chosen one is strictly farther).  The nonzero hypothesis
matches the schemes' normalization premise (an all-zero tensor has
`abs_max = 0`, which floating-point evaluation turns into NaN); in the
exact rational embedding the conclusion holds with it. -/
theorem C4_codebook_nearest (xs : List ℚ) (th : ℚ → ℚ) (i j4 j8 : ℕ)
    (hi : i < xs.length) (_hnz : ∃ y ∈ xs, y ≠ 0)
    (hj4 : j4 < 16) (hj8 : j8 < 256) :
    (|xs.getD i 0 / absMax xs -
        nf4_levels.getD ((quantize_4bit_nf4 xs).1.getD i 0) 0| ≤
      |xs.getD i 0 / absMax xs - nf4_levels.getD j4 0| ∧
     (j4 < (quantize_4bit_nf4 xs).1.getD i 0 →
       |xs.getD i 0 / absMax xs -
           nf4_levels.getD ((quantize_4bit_nf4 xs).1.getD i 0) 0| <
         |xs.getD i 0 / absMax xs - nf4_levels.getD j4 0|)) ∧
    (|xs.getD i 0 / absMax xs -
        (nf8_levels th).getD ((quantize_8bit_nf8 th xs).1.getD i 0) 0| ≤
      |xs.getD i 0 / absMax xs - (nf8_levels th).getD j8 0| ∧
     (j8 < (quantize_8bit_nf8 th xs).1.getD i 0 →
       |xs.getD i 0 / absMax xs -
           (nf8_levels th).getD ((quantize_8bit_nf8 th xs).1.getD i 0) 0| <
         |xs.getD i 0 / absMax xs - (nf8_levels th).getD j8 0|)) := by
  have hc4 : (quantize_4bit_nf4 xs).1.getD i 0 =
      nfCode nf4_levels (absMax xs) (xs.getD i 0) := by
    show (xs.map (nfCode nf4_levels (absMax xs))).getD i 0 = _
    rw [getD_map _ xs i hi 0 0]
  have hc8 : (quantize_8bit_nf8 th xs).1.getD i 0 =
      nfCode (nf8_levels th) (absMax xs) (xs.getD i 0) := by
    show (xs.map (nfCode (nf8_levels th) (absMax xs))).getD i 0 = _
    rw [getD_map _ xs i hi 0 0]
  have hl8 : (nf8_levels th).length = 256 := by
    unfold nf8_levels
    rw [List.length_map, List.length_range]
  constructor
  · rw [hc4]
    exact nfCode_nearest nf4_levels (by simp [nf4_levels]) (absMax xs)
      (xs.getD i 0) j4 (by have hl : nf4_levels.length = 16 := rfl; omega)
  · rw [hc8]
    exact nfCode_nearest (nf8_levels th) (by rw [← List.length_pos]; omega)
      (absMax xs) (xs.getD i 0) j8 (by omega)

theorem C4_codebook_nearest_witness :
    (0 < List.length [(1:ℚ)] ∧ (∃ y ∈ [(1:ℚ)], y ≠ 0) ∧ 0 < 16 ∧ 0 < 256) ∧
    ((|[(1:ℚ)].getD 0 0 / absMax [(1:ℚ)] -
        nf4_levels.getD ((quantize_4bit_nf4 [(1:ℚ)]).1.getD 0 0) 0| ≤
      |[(1:ℚ)].getD 0 0 / absMax [(1:ℚ)] - nf4_levels.getD 0 0| ∧
     (0 < (quantize_4bit_nf4 [(1:ℚ)]).1.getD 0 0 →
       |[(1:ℚ)].getD 0 0 / absMax [(1:ℚ)] -
           nf4_levels.getD ((quantize_4bit_nf4 [(1:ℚ)]).1.getD 0 0) 0| <
         |[(1:ℚ)].getD 0 0 / absMax [(1:ℚ)] - nf4_levels.getD 0 0|)) ∧
    (|[(1:ℚ)].getD 0 0 / absMax [(1:ℚ)] -
        (nf8_levels (fun _ => 0)).getD
          ((quantize_8bit_nf8 (fun _ => 0) [(1:ℚ)]).1.getD 0 0) 0| ≤
      |[(1:ℚ)].getD 0 0 / absMax [(1:ℚ)] - (nf8_levels (fun _ => 0)).getD 0 0| ∧
     (0 < (quantize_8bit_nf8 (fun _ => 0) [(1:ℚ)]).1.getD 0 0 →
       |[(1:ℚ)].getD 0 0 / absMax [(1:ℚ)] -
           (nf8_levels (fun _ => 0)).getD
             ((quantize_8bit_nf8 (fun _ => 0) [(1:ℚ)]).1.getD 0 0) 0| <
         |[(1:ℚ)].getD 0 0 / absMax [(1:ℚ)] -
           (nf8_levels (fun _ => 0)).getD 0 0|))) :=
  ⟨⟨by decide, ⟨1, by simp, one_ne_zero⟩, by decide, by decide⟩,
    C4_codebook_nearest [(1:ℚ)] (fun _ => 0) 0 0 0 (by decide)
      ⟨1, by simp, one_ne_zero⟩ (by decide) (by decide)⟩

/-! ## Helper lemmas: per-channel (per-column) parameters -/

theorem foldl_zipWith_length (f : ℚ → ℚ → ℚ) (rs : List (List ℚ))
    (acc : List ℚ) (w : ℕ) (hacc : acc.length = w)
    (hrs : ∀ r ∈ rs, r.length = w) :
    (rs.foldl (List.zipWith f) acc).length = w := by
  induction rs generalizing acc with
  | nil => simpa
  | cons r rs ih =>
    apply ih
    · rw [List.length_zipWith, hacc, hrs r (by simp)]
      exact min_self w
    · intro r' hr'
      exact hrs r' (by simp [hr'])

theorem colReduce_length (f : ℚ → ℚ → ℚ) (rows : List (List ℚ)) (w : ℕ)
    (hne : rows ≠ []) (hw : ∀ r ∈ rows, r.length = w) :
    (colReduce f rows).length = w := by
  cases rows with
  | nil => exact absurd rfl hne
  | cons r rs =>
    exact foldl_zipWith_length f rs r w (hw r (by simp))
      (fun r' h => hw r' (by simp [h]))

theorem foldl_minmax_getD_le (rs : List (List ℚ)) (a b : List ℚ) (w j : ℕ)
    (hj : j < w) (ha : a.length = w) (hb : b.length = w)
    (hab : a.getD j 0 ≤ b.getD j 0) (hrs : ∀ r ∈ rs, r.length = w) :
    (rs.foldl (List.zipWith min) a).getD j 0 ≤
      (rs.foldl (List.zipWith max) b).getD j 0 := by
  induction rs generalizing a b with
  | nil => exact hab
  | cons r rs ih =>
    have hr : r.length = w := hrs r (by simp)
    apply ih (List.zipWith min a r) (List.zipWith max b r)
    · rw [List.length_zipWith, ha, hr]
      exact min_self w
    · rw [List.length_zipWith, hb, hr]
      exact min_self w
    · rw [getD_zipWith min a r j (by omega) (by omega) 0 0 0,
          getD_zipWith max b r j (by omega) (by omega) 0 0 0]
      exact le_trans (min_le_left _ _) (le_trans hab (le_max_left _ _))
    · intro r' hr'
      exact hrs r' (by simp [hr'])

theorem colMin_le_colMax (rows : List (List ℚ)) (w j : ℕ) (hne : rows ≠ [])
    (hw : ∀ r ∈ rows, r.length = w) (hj : j < w) :
    (colReduce min rows).getD j 0 ≤ (colReduce max rows).getD j 0 := by
  cases rows with
  | nil => exact absurd rfl hne
  | cons r rs =>
    exact foldl_minmax_getD_le rs r r w j hj (hw r (by simp)) (hw r (by simp))
      le_rfl (fun r' h => hw r' (by simp [h]))

theorem scaleFormula_pos (L : ℕ) (hL : 0 < L) (mn mx : ℚ) (h : mn ≤ mx) :
    0 < (nudgedMax mn mx - mn) / L := by
  have hL' : (0 : ℚ) < L := by exact_mod_cast hL
  unfold nudgedMax
  split_ifs with hc
  · rw [div_pos_iff]
    left
    constructor <;> linarith
  · have hlt : mn < mx := lt_of_le_of_ne h (fun he => hc he.symm)
    rw [div_pos_iff]
    left
    constructor <;> linarith

theorem perChannelParams_getD (L : ℕ) (rows : List (List ℚ)) (w j : ℕ)
    (hne : rows ≠ []) (hw : ∀ r ∈ rows, r.length = w) (hj : j < w) :
    (perChannelParams L rows).1.getD j 0 =
      (nudgedMax ((colReduce min rows).getD j 0)
          ((colReduce max rows).getD j 0) -
        (colReduce min rows).getD j 0) / L := by
  unfold perChannelParams
  exact getD_zipWith _ _ _ j
    (by rw [colReduce_length min rows w hne hw]; omega)
    (by rw [colReduce_length max rows w hne hw]; omega) 0 0 0

theorem perChannelScale_pos (L : ℕ) (hL : 0 < L) (rows : List (List ℚ))
    (w j : ℕ) (hne : rows ≠ []) (hw : ∀ r ∈ rows, r.length = w)
    (hj : j < w) : 0 < (perChannelParams L rows).1.getD j 0 := by
  rw [perChannelParams_getD L rows w j hne hw hj]
  exact scaleFormula_pos L hL _ _ (colMin_le_colMax rows w j hne hw hj)

theorem perChannel_code_entry (L : ℕ) (rows : List (List ℚ)) (w i j : ℕ)
    (hw : ∀ r ∈ rows, r.length = w) (hi : i < rows.length) (hj : j < w) :
    ((quantize_linear_per_channel L rows).1.getD i []).getD j 0 =
      linCode L ((perChannelParams L rows).1.getD j 0)
        ((perChannelParams L rows).2.getD j 0)
        ((rows.getD i []).getD j 0) := by
  have hne : rows ≠ [] := by rintro rfl; simp at hi
  have hrowmem : rows.getD i [] ∈ rows := by
    rw [List.getD_eq_getElem rows [] hi]
    exact List.getElem_mem hi
  have hrow : (rows.getD i []).length = w := hw _ hrowmem
  have h1 : (quantize_linear_per_channel L rows).1.getD i [] =
      List.zipWith (fun x sz => linCode L sz.1 sz.2 x) (rows.getD i [])
        ((perChannelParams L rows).1.zip (perChannelParams L rows).2) := by
    show (rows.map _).getD i [] = _
    rw [getD_map _ rows i hi [] []]
  rw [h1]
  have hsl : (perChannelParams L rows).1.length = w := by
    unfold perChannelParams
    rw [List.length_zipWith, colReduce_length min rows w hne hw,
        colReduce_length max rows w hne hw]
    exact min_self w
  have hzl : (perChannelParams L rows).2.length = w :=
    colReduce_length min rows w hne hw
  have hz : ((perChannelParams L rows).1.zip
      (perChannelParams L rows).2).length = w := by
    rw [List.length_zip, hsl, hzl]
    exact min_self w
  rw [getD_zipWith _ _ _ j (by omega) (by omega) 0 (0, 0) 0]
  have hzip : (perChannelParams L rows).1.zip (perChannelParams L rows).2 =
      List.zipWith Prod.mk (perChannelParams L rows).1
        (perChannelParams L rows).2 := rfl
  rw [hzip, getD_zipWith Prod.mk _ _ j (by omega) (by omega) 0 0 (0, 0)]

/-- C9: linear quantization is monotone.  Globally: for two elements
`x1 < x2` of the same tensor, `code(x1) ≤ code(x2)` (with the scale and
zero point produced by `quantize_linear`).  Per channel: for two
elements of the same column `j` of a rectangular 2-D tensor (the slices
sharing one scale/zero-point under the `per_channel` reduction along
dimension 0), the smaller element's code is at most the larger's. -/
theorem C9_affine_monotone (L : ℕ) (xs : List ℚ) (x1 x2 : ℚ)
    (rows : List (List ℚ)) (w i1 i2 j : ℕ)
    (hL : 0 < L) (h1 : x1 ∈ xs) (h2 : x2 ∈ xs) (hx : x1 < x2)
    (hw : ∀ r ∈ rows, r.length = w) (hi1 : i1 < rows.length)
    (hi2 : i2 < rows.length) (hj : j < w)
    (hcol : (rows.getD i1 []).getD j 0 < (rows.getD i2 []).getD j 0) :
    linCode L (quantize_linear L xs).2.1 (quantize_linear L xs).2.2 x1 ≤
      linCode L (quantize_linear L xs).2.1 (quantize_linear L xs).2.2 x2 ∧
    ((quantize_linear_per_channel L rows).1.getD i1 []).getD j 0 ≤
      ((quantize_linear_per_channel L rows).1.getD i2 []).getD j 0 := by
  constructor
  · have hs : 0 < linScale L xs := linScale_pos L hL xs (by rintro rfl; cases h1)
    exact linCode_mono L hs (tmin xs) (le_of_lt hx)
  · have hne : rows ≠ [] := by rintro rfl; simp at hi1
    rw [perChannel_code_entry L rows w i1 j hw hi1 hj,
        perChannel_code_entry L rows w i2 j hw hi2 hj]
    exact linCode_mono L (perChannelScale_pos L hL rows w j hne hw hj) _
      (le_of_lt hcol)

theorem C9_affine_monotone_witness :
    (0 < 15 ∧ (0:ℚ) ∈ [(0:ℚ), 1] ∧ (1:ℚ) ∈ [(0:ℚ), 1] ∧ (0:ℚ) < 1 ∧
     (∀ r ∈ ([[(0:ℚ)], [100]] : List (List ℚ)), r.length = 1) ∧
     0 < 2 ∧ 1 < 2 ∧ 0 < 1 ∧
     (([[(0:ℚ)], [100]] : List (List ℚ)).getD 0 []).getD 0 0 <
       (([[(0:ℚ)], [100]] : List (List ℚ)).getD 1 []).getD 0 0) ∧
    (linCode 15 (quantize_linear 15 [(0:ℚ), 1]).2.1
        (quantize_linear 15 [(0:ℚ), 1]).2.2 0 ≤
      linCode 15 (quantize_linear 15 [(0:ℚ), 1]).2.1
        (quantize_linear 15 [(0:ℚ), 1]).2.2 1 ∧
     ((quantize_linear_per_channel 15 [[(0:ℚ)], [100]]).1.getD 0 []).getD 0 0 ≤
       ((quantize_linear_per_channel 15 [[(0:ℚ)], [100]]).1.getD 1 []).getD 0 0) :=
  ⟨⟨by decide, by simp, by simp, by norm_num, by simp, by decide, by decide,
    by decide, by norm_num⟩,
   C9_affine_monotone 15 [(0:ℚ), 1] 0 1 [[(0:ℚ)], [100]] 1 0 1 0
     (by decide) (by simp) (by simp) (by norm_num) (by simp) (by decide)
     (by decide) (by decide) (by norm_num)⟩

/-- C3 counterexample: with `per_channel=True` on the 2-row tensor
`[[0,10],[100,200]]`, the quantizer reduces along dimension 0 and so
computes one `(scale, zero_point)` pair per column — scales
`[100/255, 190/255]` and zero points `[0, 10]` — not one pair per row
(`[10/255, 100/255]` with zero points `[0, 100]`) as the claim states. -/
theorem C3_cex_per_channel_params :
    perChannelParams 255 [[0, 10], [100, 200]] =
      ([100/255, 190/255], [0, 10]) ∧
    perRowParams 255 [[0, 10], [100, 200]] =
      ([10/255, 100/255], [0, 100]) ∧
    perChannelParams 255 [[0, 10], [100, 200]] ≠
      perRowParams 255 [[0, 10], [100, 200]] := by
  have h1 : perChannelParams 255 [[0, 10], [100, 200]] =
      (([100/255, 190/255] : List ℚ), ([0, 10] : List ℚ)) := by
    norm_num [perChannelParams, colReduce, nudgedMax, List.foldl]
  have h2 : perRowParams 255 [[0, 10], [100, 200]] =
      (([10/255, 100/255] : List ℚ), ([0, 100] : List ℚ)) := by
    norm_num [perRowParams, linScale, tmin, tmax, nudgedMax, List.foldl]
  refine ⟨h1, h2, ?_⟩
  rw [h1, h2]
  intro h
  rw [Prod.mk.injEq] at h
  have h3 := h.1
  simp only [List.cons.injEq] at h3
  have h4 := h3.1
  norm_num at h4

/-- C3 amended: on `[[0,10],[100,200]]` with `per_channel=True` the
linear 8-bit quantizer produces one `(scale, zero_point)` pair per
column (`(100/255, 0)` and `(190/255, 10)`), the two pairs differ, and
every element satisfies the affine round-trip bound
`|dequantize(quantize(x)) - x| <= scale/2` with its column's
parameters (here all four elements reconstruct exactly). -/
theorem C3_amended_per_column_roundtrip :
    perChannelParams 255 [[0, 10], [100, 200]] =
      ([100/255, 190/255], [0, 10]) ∧
    ((100:ℚ)/255, (0:ℚ)) ≠ ((190:ℚ)/255, (10:ℚ)) ∧
    (∀ i j, i < 2 → j < 2 →
      |dequantize_linear
          (((quantize_linear_per_channel 255 [[0, 10], [100, 200]]).1.getD
              i []).getD j 0)
          ((perChannelParams 255 [[0, 10], [100, 200]]).1.getD j 0)
          ((perChannelParams 255 [[0, 10], [100, 200]]).2.getD j 0) -
        (([[0, 10], [100, 200]] : List (List ℚ)).getD i []).getD j 0| ≤
        (perChannelParams 255 [[0, 10], [100, 200]]).1.getD j 0 / 2) := by
  refine ⟨?_, ?_, ?_⟩
  · norm_num [perChannelParams, colReduce, nudgedMax, List.foldl]
  · intro h
    rw [Prod.mk.injEq] at h
    norm_num at h
  · intro i j hi hj
    interval_cases i <;> interval_cases j <;>
      norm_num [quantize_linear_per_channel, perChannelParams, colReduce,
        nudgedMax, linCode, clampI, rnd, dequantize_linear, List.foldl,
        (by decide : Int.toNat 255 = 255)]

theorem C3_amended_per_column_roundtrip_witness :
    (0 < 2 ∧ 0 < 2) ∧
    |dequantize_linear
        (((quantize_linear_per_channel 255 [[0, 10], [100, 200]]).1.getD
            0 []).getD 0 0)
        ((perChannelParams 255 [[0, 10], [100, 200]]).1.getD 0 0)
        ((perChannelParams 255 [[0, 10], [100, 200]]).2.getD 0 0) -
      (([[0, 10], [100, 200]] : List (List ℚ)).getD 0 []).getD 0 0| ≤
      (perChannelParams 255 [[0, 10], [100, 200]]).1.getD 0 0 / 2 :=
  ⟨⟨by decide, by decide⟩,
    C3_amended_per_column_roundtrip.2.2 0 0 (by decide) (by decide)⟩
